import Mathlib

/-!
Verification of the workspace-indexing core of the langium repository slice:

* `NodeFileSystemProvider` (src/packages/langium/src/workspace/file-system-provider.ts):
  `traverse`, `traverseFolder`, `getFolderNodes` — a filtered, depth-first,
  pre-order recursive walk over a directory tree collecting file URIs.
* `DefaultWorkspaceManager` (workspace manager source file):
  `initializeWorkspace`, `getRootFolder`, `includeNode` — per-root traversal with
  the default inclusion filter, document creation, the additional-documents hook,
  and a single final build call.

Modelling conventions:
* A URI (`vscode-uri` value) is modelled as its list of path segments; equality of
  URIs is equality of the normalized segment lists.  `Utils.resolvePath parent name`
  appends one segment.
* The state of the underlying storage beneath one folder is a finite tree `FSNode`.
  A raw directory entry (an `fs.Dirent`) is one child in that tree: a plain file, a
  readable directory with its children, a directory whose `readdir` fails with a
  given error (permission denied etc.), or a node of any other kind (symbolic link,
  socket, ...), for which both `dirent.isFile()` and `dirent.isDirectory()` return
  `false`.
* Asynchronous fallible computations (`Promise`) are modelled with `Except String`;
  `await` is monadic sequencing, a thrown error is `Except.error`.  The source
  awaits every recursive traversal before continuing, so the embedding is a plain
  sequential function.
* The `uris`/`documents` accumulator arrays filled through `push` callbacks are
  modelled by returning the list of collected values in push order.
-/

/-- A URI, modelled as its list of path segments (normalized form). -/
abbrev URI := List String

/-- Model of `Utils.resolvePath folder name`: resolve a child name against a parent location. -/
def resolvePath (folder : URI) (name : String) : URI := folder ++ [name]

/-- The storage tree beneath a folder.  Each constructor is one kind of raw
directory entry (`fs.Dirent`): a plain file, a readable directory with its
children in listing order, a directory whose listing fails with error `err`,
or a node of any other kind (unresolved symlink, device, socket, ...). -/
inductive FSNode : Type where
  | file (name : String) : FSNode
  | dir (name : String) (children : List FSNode) : FSNode
  | baddir (name : String) (err : String) : FSNode
  | other (name : String) : FSNode

/-- Model of `dirent.name`. -/
def FSNode.name : FSNode → String
  | .file n => n
  | .dir n _ => n
  | .baddir n _ => n
  | .other n => n

/-- Model of `dirent.isFile()`: true exactly for plain files. -/
def direntIsFile : FSNode → Bool
  | .file _ => true
  | _ => false

/-- Model of `dirent.isDirectory()`: true exactly for directories, including ones whose
listing will fail when read. -/
def direntIsDirectory : FSNode → Bool
  | .dir _ _ => true
  | .baddir _ _ => true
  | _ => false

/-- The `FileSystemNode` interface of file-system-provider.ts. -/
structure FileSystemNode where
  isFile : Bool
  isDirectory : Bool
  name : String
  container : URI
deriving DecidableEq

/-- The object literal built for one dirent inside `getFolderNodes`:
`{ isFile: dirent.isFile(), isDirectory: dirent.isDirectory(), name: dirent.name,
container: folderPath }`. -/
def mkFileSystemNode (container : URI) (d : FSNode) : FileSystemNode :=
  { isFile := direntIsFile d
    isDirectory := direntIsDirectory d
    name := d.name
    container := container }

/-- Model of `NodeFileSystemProvider.getFolderNodes` applied to the dirents returned by
`fs.promises.readdir(folderPath, { withFileTypes: true })`:
`dirents.map(dirent => ({ isFile: ..., isDirectory: ..., name: ..., container: folderPath }))`. -/
def getFolderNodes (folderPath : URI) (dirents : List FSNode) : List FileSystemNode :=
  dirents.map (mkFileSystemNode folderPath)

/-- The guard `!filter || filter(entry)` of `traverseFolder`. -/
def passesFilter (filter : Option (FileSystemNode → Bool)) (entry : FileSystemNode) : Bool :=
  match filter with
  | none => true
  | some f => f entry

mutual

/-- Model of `NodeFileSystemProvider.traverseFolder folderPath filter collector`, applied to
the storage node found at `folderPath`.  Reading the folder's entries
(`getFolderNodes`, i.e. `readdir`) fails on a `baddir` (and on a non-directory);
otherwise the loop body of the source runs on `getFolderNodes folderPath children`
element by element, in order.  The returned list holds the URIs passed to
`collector`, in push order; an error aborts the whole call. -/
def traverseFolder (folderPath : URI) (filter : Option (FileSystemNode → Bool)) :
    FSNode → Except String (List URI)
  | FSNode.dir _ children => traverseEntries folderPath filter children
  | FSNode.baddir _ err => Except.error err
  | _ => Except.error "ENOTDIR"

/-- The `for (const entry of content)` loop of `traverseFolder`, where the entry
for child `c` is `mkFileSystemNode folderPath c` (the corresponding element of
`getFolderNodes folderPath children`).  For an entry that passes the filter the
source resolves `uri = Utils.resolvePath(folderPath, entry.name)` and then either
awaits the recursive `traverseFolder(uri, ...)` (directory) or pushes `uri`
(file); entries with neither flag and filtered-out entries contribute nothing. -/
def traverseEntries (folderPath : URI) (filter : Option (FileSystemNode → Bool)) :
    List FSNode → Except String (List URI)
  | [] => Except.ok []
  | c :: rest =>
    let entry := mkFileSystemNode folderPath c
    if passesFilter filter entry then
      if entry.isDirectory then
        match traverseFolder (resolvePath folderPath entry.name) filter c with
        | Except.error e => Except.error e
        | Except.ok here =>
          match traverseEntries folderPath filter rest with
          | Except.error e => Except.error e
          | Except.ok tail => Except.ok (here ++ tail)
      else if entry.isFile then
        match traverseEntries folderPath filter rest with
        | Except.error e => Except.error e
        | Except.ok tail => Except.ok (resolvePath folderPath entry.name :: tail)
      else
        traverseEntries folderPath filter rest
    else
      traverseEntries folderPath filter rest

end

/-- Model of `NodeFileSystemProvider.traverse root filter`: run `traverseFolder` on the
storage node at `root` with a fresh `uris` accumulator and return it. -/
def traverse (root : URI) (filter : Option (FileSystemNode → Bool)) (rootNode : FSNode) :
    Except String (List URI) :=
  traverseFolder root filter rootNode

/-- Suffix of a character list starting at its last dot, if any. -/
def lastDotSuffix : List Char → Option (List Char)
  | [] => none
  | c :: rest =>
    match lastDotSuffix rest with
    | some s => some s
    | none => if c == '.' then some (c :: rest) else none

/-- Node's `path.extname` restricted to plain base names (the names handled by
`includeNode` contain no path separators): the suffix starting at the last dot,
except that a dot in position 0 does not begin an extension (`.hidden` has
extension `""`).  Names consisting only of dots (`".."`) differ from Node here,
but `includeNode` rejects every name with a leading dot before calling this. -/
def extname (name : String) : String :=
  match name.toList with
  | [] => ""
  | _ :: rest =>
    match lastDotSuffix rest with
    | some s => String.mk s
    | none => ""

/-- Model of `name.startsWith "."` for the single-character pattern used by `includeNode`:
whether the first character of the string is a dot. -/
def startsWithDot (s : String) : Bool :=
  match s.toList with
  | c :: _ => c == '.'
  | [] => false

/-- Model of `DefaultWorkspaceManager.includeNode node fileExtensions`. -/
def includeNode (node : FileSystemNode) (fileExtensions : List String) : Bool :=
  if startsWithDot node.name then false
  else if node.isDirectory then node.name != "node_modules" && node.name != "out"
  else if node.isFile then fileExtensions.contains (extname node.name)
  else false

/-- A `LangiumDocument` handle: either the document created for a traversed URI by
`langiumDocuments.getOrCreateDocument` (idempotent, so determined by the URI), or
a document contributed by the `loadAdditionalDocuments` hook. -/
inductive Document : Type where
  | ofUri (uri : URI) : Document
  | inMemory (id : String) : Document
deriving DecidableEq

/-- Observable steps of `initializeWorkspace`, in completion order: one per-root
traversal settling, the `loadAdditionalDocuments` hook resolving, and the single
`documentBuilder.build` call with its argument. -/
inductive Event : Type where
  | traversed (root : URI) (uris : List URI) : Event
  | hookRan (docs : List Document) : Event
  | built (docs : List Document) : Event
deriving DecidableEq

/-- Whether an event is the build call. -/
def Event.isBuilt : Event → Bool
  | .built _ => true
  | _ => false

/-- The `LanguageMetaData` of one registered language: its recognized file extensions. -/
structure LanguageMetaData where
  fileExtensions : List String

/-- A workspace folder as supplied by the host, with its URI already parsed. -/
structure WorkspaceFolder where
  uri : URI

/-- Model of `DefaultWorkspaceManager.getRootFolder` (default implementation): the
workspace folder's own URI. -/
def getRootFolder (workspaceFolder : WorkspaceFolder) : URI :=
  workspaceFolder.uri

/-- The environment `initializeWorkspace` runs in: the registered languages
(`serviceRegistry.all`), the storage node found at each root location, and the
documents the (overridable) `loadAdditionalDocuments` hook pushes into the
collector, in push order. -/
structure WorkspaceEnv where
  languages : List LanguageMetaData
  fs : URI → FSNode
  additionalDocuments : List Document

/-- The filter closure `node => this.includeNode(node, fileExtensions)` passed by
`DefaultWorkspaceManager.traverseFolder` to `fileSystemProvider.traverse`. -/
def workspaceFilter (fileExtensions : List String) : FileSystemNode → Bool :=
  fun node => includeNode node fileExtensions

/-- Model of `Promise.all` on a list of already-started computations: succeeds with all
results (in list position order) when all succeed, otherwise fails.  For the
error value the model commits to the first failure in list order. -/
def collectAll : List (Except String α) → Except String (List α)
  | [] => Except.ok []
  | x :: rest =>
    match x with
    | Except.error e => Except.error e
    | Except.ok v =>
      match collectAll rest with
      | Except.error e => Except.error e
      | Except.ok vs => Except.ok (v :: vs)

/-- Model of `DefaultWorkspaceManager.initializeWorkspace folders`, as the sequence of its
observable steps.  Following the source line by line:
`fileExtensions = serviceRegistry.all.flatMap(e => e.LanguageMetaData.fileExtensions)`;
`rootFolders = folders.map(wf => this.getRootFolder(wf))`;
`uris = (await Promise.all(rootFolders.map(e => this.traverseFolder(e, fileExtensions)))).flat()`
(where the manager's `traverseFolder` is `fileSystemProvider.traverse` with the
`includeNode` filter); `documents = uris.map(uri => getOrCreateDocument(uri))`;
`await this.loadAdditionalDocuments(folders, collector)` appends the hook's
documents; finally `await this.documentBuilder.build(documents)`.  A rejection
anywhere propagates and the steps after it (in particular the build call) never
happen, so they appear in no event trace. -/
def initializeWorkspace (env : WorkspaceEnv) (folders : List WorkspaceFolder) :
    Except String (List Event) :=
  let fileExtensions := (env.languages.map (fun e => e.fileExtensions)).flatten
  let rootFolders := folders.map getRootFolder
  match collectAll (rootFolders.map (fun r =>
      traverse r (some (workspaceFilter fileExtensions)) (env.fs r))) with
  | Except.error e => Except.error e
  | Except.ok uriLists =>
    let uris := uriLists.flatten
    let documents := uris.map Document.ofUri ++ env.additionalDocuments
    Except.ok ((rootFolders.zip uriLists).map (fun ru => Event.traversed ru.1 ru.2)
      ++ [Event.hookRan env.additionalDocuments, Event.built documents])

mutual

/-- Specification-side description of the file locations reachable from folder
`p` through a list of raw entries, in listing order, depth first. -/
def reachableFilesList (p : URI) : List FSNode → List URI
  | [] => []
  | c :: rest => reachableFilesFrom p c ++ reachableFilesList p rest

/-- The file locations one raw entry of folder `p` contributes: a file
contributes its resolved location, a readable subdirectory contributes all files
anywhere below it, anything else contributes nothing. -/
def reachableFilesFrom (p : URI) : FSNode → List URI
  | FSNode.file n => [resolvePath p n]
  | FSNode.dir n cs => reachableFilesList (resolvePath p n) cs
  | _ => []

end

/-- The file locations reachable from a root directory at location `p`. -/
def reachableFiles (p : URI) : FSNode → List URI
  | FSNode.dir _ cs => reachableFilesList p cs
  | _ => []

mutual

/-- Specification-side description of the directory locations strictly below
folder `p` through a list of raw entries. -/
def reachableDirsList (p : URI) : List FSNode → List URI
  | [] => []
  | c :: rest => reachableDirsFrom p c ++ reachableDirsList p rest

/-- The directory locations one raw entry of folder `p` contributes: a
directory (readable or not) contributes its own resolved location, a readable
one also every directory location below it. -/
def reachableDirsFrom (p : URI) : FSNode → List URI
  | FSNode.dir n cs => resolvePath p n :: reachableDirsList (resolvePath p n) cs
  | FSNode.baddir n _ => [resolvePath p n]
  | _ => []

end

/-- The directory locations reachable from a root directory at location `p`,
including `p` itself. -/
def reachableDirs (p : URI) : FSNode → List URI
  | FSNode.dir _ cs => p :: reachableDirsList p cs
  | FSNode.baddir _ _ => [p]
  | _ => []

mutual

/-- No directory anywhere in the list of subtrees fails to list. -/
def noBadDirList : List FSNode → Bool
  | [] => true
  | c :: rest => noBadDir c && noBadDirList rest

/-- No directory anywhere in the tree fails to list (every `readdir` performed
below, at, or for this node succeeds). -/
def noBadDir : FSNode → Bool
  | FSNode.dir _ cs => noBadDirList cs
  | FSNode.baddir _ _ => false
  | _ => true

end

mutual

/-- Well-formedness of a real directory hierarchy: inside every directory the
entry names are pairwise distinct (as in an actual file system). -/
def wellFormedList : List FSNode → Bool
  | [] => true
  | c :: rest => wellFormed c && wellFormedList rest

/-- Well-formedness of one subtree: sibling names are distinct at every level. -/
def wellFormed : FSNode → Bool
  | FSNode.dir _ cs => decide ((cs.map FSNode.name).Nodup) && wellFormedList cs
  | _ => true

end

/-- The directory tree of end-to-end scenario A: root `/ws` containing `a.lang`,
`b.txt`, `sub/c.lang` and `node_modules/d.lang`. -/
def wsTree : FSNode :=
  FSNode.dir "ws"
    [FSNode.file "a.lang", FSNode.file "b.txt",
     FSNode.dir "sub" [FSNode.file "c.lang"],
     FSNode.dir "node_modules" [FSNode.file "d.lang"]]

/-- Environment of scenario A: one language with recognized extension `.lang`,
the tree `wsTree` at root `/ws`, no hook-contributed documents. -/
def envA : WorkspaceEnv :=
  { languages := [⟨[".lang"]⟩]
    fs := fun r => if r = ["ws"] then wsTree else FSNode.dir "root" []
    additionalDocuments := [] }

/-- Environment with two one-file roots `/ws1`, `/ws2` and one hook-contributed
in-memory document. -/
def envB : WorkspaceEnv :=
  { languages := [⟨[".lang"]⟩]
    fs := fun r =>
      if r = ["ws1"] then FSNode.dir "ws1" [FSNode.file "one.lang"]
      else if r = ["ws2"] then FSNode.dir "ws2" [FSNode.file "two.lang"]
      else FSNode.dir "root" []
    additionalDocuments := [Document.inMemory "builtin"] }

/-- Environment of end-to-end scenario D: root `/ws1` is fine, but below root
`/bad` the subfolder `sub` cannot be listed (permission denied). -/
def envD : WorkspaceEnv :=
  { languages := [⟨[".lang"]⟩]
    fs := fun r =>
      if r = ["ws1"] then FSNode.dir "ws1" [FSNode.file "one.lang"]
      else if r = ["bad"] then FSNode.dir "bad" [FSNode.file "x.lang", FSNode.baddir "sub" "EACCES"]
      else FSNode.dir "root" []
    additionalDocuments := [] }

theorem traverseEntries_nil (p : URI) (f : Option (FileSystemNode → Bool)) :
    traverseEntries p f [] = Except.ok [] := rfl

theorem traverseEntries_cons_skip (p : URI) (f : Option (FileSystemNode → Bool))
    (c : FSNode) (rest : List FSNode) (h : passesFilter f (mkFileSystemNode p c) = false) :
    traverseEntries p f (c :: rest) = traverseEntries p f rest := by
  simp only [traverseEntries, h, if_false, Bool.false_eq_true]

theorem traverseEntries_cons_file (p : URI) (f : Option (FileSystemNode → Bool))
    (n : String) (rest : List FSNode)
    (h : passesFilter f (mkFileSystemNode p (FSNode.file n)) = true) :
    traverseEntries p f (FSNode.file n :: rest) =
      Except.map (fun tail => resolvePath p n :: tail) (traverseEntries p f rest) := by
  simp only [traverseEntries, h, if_true]
  cases htail : traverseEntries p f rest <;>
    simp [mkFileSystemNode, direntIsFile, direntIsDirectory, FSNode.name, Except.map]

theorem traverseEntries_cons_dir (p : URI) (f : Option (FileSystemNode → Bool))
    (n : String) (cs rest : List FSNode)
    (h : passesFilter f (mkFileSystemNode p (FSNode.dir n cs)) = true) :
    traverseEntries p f (FSNode.dir n cs :: rest) =
      Except.bind (traverseEntries (resolvePath p n) f cs)
        (fun here => Except.map (fun tail => here ++ tail) (traverseEntries p f rest)) := by
  simp only [traverseEntries, h, if_true]
  cases hhere : traverseEntries (resolvePath p n) f cs <;>
    cases htail : traverseEntries p f rest <;>
      simp [mkFileSystemNode, direntIsFile, direntIsDirectory, FSNode.name,
        traverseFolder, hhere, htail, Except.map, Except.bind]

theorem traverseEntries_cons_baddir (p : URI) (f : Option (FileSystemNode → Bool))
    (n err : String) (rest : List FSNode)
    (h : passesFilter f (mkFileSystemNode p (FSNode.baddir n err)) = true) :
    traverseEntries p f (FSNode.baddir n err :: rest) = Except.error err := by
  simp only [traverseEntries, h, if_true]
  simp [mkFileSystemNode, direntIsFile, direntIsDirectory, FSNode.name, traverseFolder]

theorem traverseEntries_cons_other (p : URI) (f : Option (FileSystemNode → Bool))
    (n : String) (rest : List FSNode) :
    traverseEntries p f (FSNode.other n :: rest) = traverseEntries p f rest := by
  cases h : passesFilter f (mkFileSystemNode p (FSNode.other n)) <;>
    simp [traverseEntries, h, mkFileSystemNode, direntIsFile, direntIsDirectory]

/-- C5: the default inclusion filter includes a directory entry iff its name has
no leading dot and is neither `node_modules` nor `out`; it includes a file entry
iff its name has no leading dot and its extension is recognized (so only if the
extension is recognized); and on scenario A (root `/ws` with `a.lang`, `b.txt`,
`sub/c.lang`, `node_modules/d.lang`, recognized extension `.lang`)
initialization collects exactly `/ws/a.lang` and `/ws/sub/c.lang`. -/
theorem includeNode_default_filter_spec :
    (∀ (n : String) (c : URI) (exts : List String),
      includeNode ⟨false, true, n, c⟩ exts =
        (!startsWithDot n && (n != "node_modules" && n != "out")))
    ∧ (∀ (n : String) (c : URI) (exts : List String),
      includeNode ⟨true, false, n, c⟩ exts =
        (!startsWithDot n && exts.contains (extname n)))
    ∧ initializeWorkspace envA [⟨["ws"]⟩] =
        Except.ok [Event.traversed ["ws"] [["ws", "a.lang"], ["ws", "sub", "c.lang"]],
          Event.hookRan [], Event.built [Document.ofUri ["ws", "a.lang"],
            Document.ofUri ["ws", "sub", "c.lang"]]] := by
  refine ⟨?_, ?_, rfl⟩
  · intro n c exts
    cases hn : startsWithDot n <;> simp [includeNode, hn]
  · intro n c exts
    cases hn : startsWithDot n <;> simp [includeNode, hn]

/-- C7, amended: `getFolderNodes` maps every dirent to an entry (nothing is
excluded, the list keeps its length), no produced entry has both `isFile` and
`isDirectory` true, and an entry of any other node kind (both flags false)
contributes nothing to a traversal: the loop neither collects nor recurses on
it. -/
theorem folder_nodes_flags_amended :
    (∀ (p : URI) (dirents : List FSNode),
      (getFolderNodes p dirents).length = dirents.length)
    ∧ (∀ (p : URI) (dirents : List FSNode),
      (getFolderNodes p dirents).filter (fun e => e.isFile && e.isDirectory) = [])
    ∧ (∀ (p : URI) (f : Option (FileSystemNode → Bool)) (n : String) (rest : List FSNode),
      traverseEntries p f (FSNode.other n :: rest) = traverseEntries p f rest) := by
  refine ⟨?_, ?_, ?_⟩
  · intro p dirents
    simp [getFolderNodes]
  · intro p dirents
    induction dirents with
    | nil => rfl
    | cons d rest ih =>
      cases d <;>
        simpa [getFolderNodes, mkFileSystemNode, direntIsFile, direntIsDirectory,
          List.filter_cons] using ih
  · intro p f n rest
    exact traverseEntries_cons_other p f n rest

/-- C7 counterexample: the claim says entries of node kinds that are neither a
plain file nor a plain directory are excluded from the list `getFolderNodes`
returns, with exactly one flag true for every entry; but for a listing holding
one such node (an unresolved symlink) the code returns a one-element list whose
entry has both flags false. -/
theorem folder_nodes_other_kind_counterexample :
    getFolderNodes ["d"] [FSNode.other "link"] =
      [{ isFile := false, isDirectory := false, name := "link", container := ["d"] }]
    ∧ ¬ (∀ e ∈ getFolderNodes ["d"] [FSNode.other "link"],
          e.isFile = true ∨ e.isDirectory = true) := by
  constructor
  · rfl
  · intro h
    have hm : ({ isFile := false, isDirectory := false, name := "link", container := ["d"] } :
        FileSystemNode) ∈ getFolderNodes ["d"] [FSNode.other "link"] := by decide
    have := h _ hm
    simp at this

/-- C8: every entry returned by a directory listing carries `container` equal to
the listed location, and the listing is exactly the immediate children: the
entries' names are the dirents' names, in order (in particular the listing is
non-recursive, one entry per immediate child). -/
theorem getFolderNodes_container_and_children :
    ∀ (p : URI) (dirents : List FSNode),
      (getFolderNodes p dirents).map FileSystemNode.container = dirents.map (fun _ => p)
      ∧ (getFolderNodes p dirents).map FileSystemNode.name = dirents.map FSNode.name := by
  intro p dirents
  constructor <;> simp [getFolderNodes, List.map_map, Function.comp_def, mkFileSystemNode]

/-- C9: the default inclusion filter rejects every entry whose name starts with
a dot — file entries included, whatever their extension — and rejects every
entry that is neither a file nor a directory. -/
theorem includeNode_rejects_hidden_and_unknown :
    ∀ (e : FileSystemNode) (exts : List String),
      (startsWithDot e.name = true → includeNode e exts = false)
      ∧ (e.isFile = false → e.isDirectory = false → includeNode e exts = false) := by
  intro e exts
  constructor
  · intro h
    simp [includeNode, h]
  · intro hf hd
    cases h : startsWithDot e.name <;> simp [includeNode, h, hf, hd]

theorem includeNode_rejects_hidden_and_unknown_witness :
    includeNode ⟨true, false, ".hidden.lang", ["ws"]⟩ [".lang"] = false
    ∧ extname ".hidden.lang" = ".lang"
    ∧ includeNode ⟨false, false, "dev", ["ws"]⟩ [".lang"] = false :=
  ⟨(includeNode_rejects_hidden_and_unknown ⟨true, false, ".hidden.lang", ["ws"]⟩ [".lang"]).1 rfl,
   rfl,
   (includeNode_rejects_hidden_and_unknown ⟨false, false, "dev", ["ws"]⟩ [".lang"]).2 rfl rfl⟩

theorem exceptMap_ok {α β : Type} {g : α → β} {x : Except String α} {b : β} :
    Except.map g x = Except.ok b ↔ ∃ a, x = Except.ok a ∧ g a = b := by
  cases x <;> simp [Except.map]

theorem exceptBind_ok {α β : Type} {x : Except String α} {g : α → Except String β} {b : β} :
    Except.bind x g = Except.ok b ↔ ∃ a, x = Except.ok a ∧ g a = Except.ok b := by
  cases x <;> simp [Except.bind]

theorem traverseEntries_append_ok (p : URI) (f : Option (FileSystemNode → Bool)) :
    ∀ (cs1 cs2 : List FSNode) (us : List URI),
      traverseEntries p f (cs1 ++ cs2) = Except.ok us →
      ∃ us1 us2, traverseEntries p f cs1 = Except.ok us1
        ∧ traverseEntries p f cs2 = Except.ok us2 ∧ us = us1 ++ us2 := by
  intro cs1
  induction cs1 with
  | nil =>
    intro cs2 us h
    exact ⟨[], us, rfl, h, rfl⟩
  | cons c cs1 ih =>
    intro cs2 us h
    rw [List.cons_append] at h
    by_cases hp : passesFilter f (mkFileSystemNode p c) = true
    · cases c with
      | file n =>
        rw [traverseEntries_cons_file p f n _ hp] at h
        obtain ⟨us', hin, rfl⟩ := exceptMap_ok.1 h
        obtain ⟨us1, us2, h1, h2, rfl⟩ := ih cs2 us' hin
        refine ⟨resolvePath p n :: us1, us2, ?_, h2, rfl⟩
        rw [traverseEntries_cons_file p f n _ hp, h1]
        rfl
      | dir n cs =>
        rw [traverseEntries_cons_dir p f n cs _ hp] at h
        obtain ⟨here, hhere, h⟩ := exceptBind_ok.1 h
        obtain ⟨us', hin, rfl⟩ := exceptMap_ok.1 h
        obtain ⟨us1, us2, h1, h2, rfl⟩ := ih cs2 us' hin
        refine ⟨here ++ us1, us2, ?_, h2, (List.append_assoc here us1 us2).symm⟩
        rw [traverseEntries_cons_dir p f n cs _ hp, hhere, h1]
        rfl
      | baddir n e =>
        rw [traverseEntries_cons_baddir p f n e _ hp] at h
        exact absurd h (by simp)
      | other n =>
        rw [traverseEntries_cons_other] at h
        obtain ⟨us1, us2, h1, h2, rfl⟩ := ih cs2 us h
        exact ⟨us1, us2, by rw [traverseEntries_cons_other]; exact h1, h2, rfl⟩
    · rw [Bool.not_eq_true] at hp
      rw [traverseEntries_cons_skip p f c _ hp] at h
      obtain ⟨us1, us2, h1, h2, rfl⟩ := ih cs2 us h
      exact ⟨us1, us2, by rw [traverseEntries_cons_skip p f c _ hp]; exact h1, h2, rfl⟩

/-- C6: the collected list follows the listing order within each directory and
depth-first pre-order across the tree.  First conjunct: for any split of a
directory's entry list, the URIs collected from the earlier entries form a
prefix of the result, in order, followed by exactly the URIs collected from the
later entries.  Second conjunct: for an accepted subdirectory at the head of the
listing, the whole recursive traversal of its subtree precedes everything
collected from the entries listed after it. -/
theorem traverse_preserves_listing_order :
    (∀ (p : URI) (f : Option (FileSystemNode → Bool)) (cs1 cs2 : List FSNode) (us : List URI),
      traverseEntries p f (cs1 ++ cs2) = Except.ok us →
      ∃ us1 us2, traverseEntries p f cs1 = Except.ok us1
        ∧ traverseEntries p f cs2 = Except.ok us2 ∧ us = us1 ++ us2)
    ∧ (∀ (p : URI) (f : Option (FileSystemNode → Bool)) (n : String) (cs rest : List FSNode)
        (us : List URI),
      passesFilter f (mkFileSystemNode p (FSNode.dir n cs)) = true →
      traverseEntries p f (FSNode.dir n cs :: rest) = Except.ok us →
      ∃ sub tail, traverseEntries (resolvePath p n) f cs = Except.ok sub
        ∧ traverseEntries p f rest = Except.ok tail ∧ us = sub ++ tail) := by
  constructor
  · exact traverseEntries_append_ok
  · intro p f n cs rest us hp h
    rw [traverseEntries_cons_dir p f n cs rest hp] at h
    obtain ⟨sub, hsub, h⟩ := exceptBind_ok.1 h
    obtain ⟨tail, htail, rfl⟩ := exceptMap_ok.1 h
    exact ⟨sub, tail, hsub, htail, rfl⟩

theorem traverse_preserves_listing_order_witness :
    (∃ us1 us2,
      traverseEntries ["ws"] (some (workspaceFilter [".lang"])) [FSNode.file "a.lang"]
          = Except.ok us1
        ∧ traverseEntries ["ws"] (some (workspaceFilter [".lang"]))
            [FSNode.dir "sub" [FSNode.file "c.lang"], FSNode.file "z.lang"] = Except.ok us2
        ∧ [["ws", "a.lang"], ["ws", "sub", "c.lang"], ["ws", "z.lang"]] = us1 ++ us2)
    ∧ (∃ sub tail,
      traverseEntries ["ws", "sub"] (some (workspaceFilter [".lang"])) [FSNode.file "c.lang"]
          = Except.ok sub
        ∧ traverseEntries ["ws"] (some (workspaceFilter [".lang"])) [FSNode.file "z.lang"]
            = Except.ok tail
        ∧ [["ws", "sub", "c.lang"], ["ws", "z.lang"]] = sub ++ tail) :=
  ⟨traverse_preserves_listing_order.1 ["ws"] (some (workspaceFilter [".lang"]))
      [FSNode.file "a.lang"] [FSNode.dir "sub" [FSNode.file "c.lang"], FSNode.file "z.lang"]
      [["ws", "a.lang"], ["ws", "sub", "c.lang"], ["ws", "z.lang"]] rfl,
   traverse_preserves_listing_order.2 ["ws"] (some (workspaceFilter [".lang"]))
      "sub" [FSNode.file "c.lang"] [FSNode.file "z.lang"]
      [["ws", "sub", "c.lang"], ["ws", "z.lang"]] rfl rfl⟩

theorem traverseEntries_error_after_ok (p : URI) (f : Option (FileSystemNode → Bool)) :
    ∀ (cs1 : List FSNode) (n err : String) (cs2 : List FSNode) (us1 : List URI),
      traverseEntries p f cs1 = Except.ok us1 →
      passesFilter f (mkFileSystemNode p (FSNode.baddir n err)) = true →
      traverseEntries p f (cs1 ++ FSNode.baddir n err :: cs2) = Except.error err := by
  intro cs1
  induction cs1 with
  | nil =>
    intro n err cs2 us1 _ hp
    exact traverseEntries_cons_baddir p f n err cs2 hp
  | cons c cs1 ih =>
    intro n err cs2 us1 h hp
    rw [List.cons_append]
    by_cases hpc : passesFilter f (mkFileSystemNode p c) = true
    · cases c with
      | file m =>
        rw [traverseEntries_cons_file p f m _ hpc] at h
        obtain ⟨us', hin, rfl⟩ := exceptMap_ok.1 h
        rw [traverseEntries_cons_file p f m _ hpc, ih n err cs2 us' hin hp]
        rfl
      | dir m cs =>
        rw [traverseEntries_cons_dir p f m cs _ hpc] at h
        obtain ⟨here, hhere, h⟩ := exceptBind_ok.1 h
        obtain ⟨us', hin, rfl⟩ := exceptMap_ok.1 h
        rw [traverseEntries_cons_dir p f m cs _ hpc, hhere, ih n err cs2 us' hin hp]
        rfl
      | baddir m e =>
        rw [traverseEntries_cons_baddir p f m e _ hpc] at h
        exact absurd h (by simp)
      | other m =>
        rw [traverseEntries_cons_other] at h
        rw [traverseEntries_cons_other, ih n err cs2 us1 h hp]
    · rw [Bool.not_eq_true] at hpc
      rw [traverseEntries_cons_skip p f c _ hpc] at h
      rw [traverseEntries_cons_skip p f c _ hpc, ih n err cs2 us1 h hp]

theorem collectAll_error_after_ok {α : Type} :
    ∀ (l1 : List (Except String α)) (e : String) (l2 : List (Except String α)),
      (∀ x ∈ l1, ∃ v, x = Except.ok v) →
      collectAll (l1 ++ Except.error e :: l2) = Except.error e := by
  intro l1
  induction l1 with
  | nil => intro e l2 _; rfl
  | cons x l1 ih =>
    intro e l2 hl
    obtain ⟨v, rfl⟩ := hl _ (List.mem_cons_self _ l1)
    rw [List.cons_append]
    have hrec : collectAll (l1 ++ Except.error e :: l2) = Except.error e :=
      ih e l2 (fun y hy => hl y (List.mem_cons_of_mem _ hy))
    simp [collectAll, hrec]

/-- C3: a failing directory listing aborts everything.  First conjunct: inside
one traversal call, if the entries processed so far succeeded and the next
accepted entry is a directory whose listing fails, the whole call returns that
error — the URIs already collected are discarded, no partial result is
returned.  Second conjunct: at the initializer level, when every root before
some workspace folder traverses successfully and that folder's traversal fails
with error `e`, `initializeWorkspace` returns `Except.error e`; in this event
model the build call appears only in a returned `Except.ok` trace, so the build
step is never invoked. -/
theorem listing_failure_aborts_initialization :
    (∀ (p : URI) (f : Option (FileSystemNode → Bool)) (cs1 : List FSNode) (n err : String)
        (cs2 : List FSNode) (us1 : List URI),
      traverseEntries p f cs1 = Except.ok us1 →
      passesFilter f (mkFileSystemNode p (FSNode.baddir n err)) = true →
      traverseEntries p f (cs1 ++ FSNode.baddir n err :: cs2) = Except.error err)
    ∧ (∀ (env : WorkspaceEnv) (pre : List WorkspaceFolder) (w : WorkspaceFolder)
        (post : List WorkspaceFolder) (e : String),
      (∀ w' ∈ pre, ∃ us, traverse (getRootFolder w')
          (some (workspaceFilter ((env.languages.map (fun l => l.fileExtensions)).flatten)))
          (env.fs (getRootFolder w')) = Except.ok us) →
      traverse (getRootFolder w)
          (some (workspaceFilter ((env.languages.map (fun l => l.fileExtensions)).flatten)))
          (env.fs (getRootFolder w)) = Except.error e →
      initializeWorkspace env (pre ++ w :: post) = Except.error e) := by
  constructor
  · intro p f cs1 n err cs2 us1 h hp
    exact traverseEntries_error_after_ok p f cs1 n err cs2 us1 h hp
  · intro env pre w post e hpre htr
    have hc : collectAll (((pre ++ w :: post).map getRootFolder).map (fun r =>
        traverse r (some (workspaceFilter ((env.languages.map (fun l => l.fileExtensions)).flatten)))
          (env.fs r))) = Except.error e := by
      rw [List.map_append, List.map_cons, List.map_append, List.map_cons, htr]
      refine collectAll_error_after_ok _ e _ ?_
      intro x hx
      rcases List.mem_map.1 hx with ⟨r, hr, rfl⟩
      rcases List.mem_map.1 hr with ⟨w', hw', rfl⟩
      exact hpre w' hw'
    simp only [initializeWorkspace]
    rw [hc]

theorem listing_failure_aborts_initialization_witness :
    traverseEntries ["bad"] (some (workspaceFilter [".lang"]))
        [FSNode.file "x.lang", FSNode.baddir "sub" "EACCES"] = Except.error "EACCES"
    ∧ initializeWorkspace envD [⟨["ws1"]⟩, ⟨["bad"]⟩] = Except.error "EACCES" :=
  ⟨listing_failure_aborts_initialization.1 ["bad"] (some (workspaceFilter [".lang"]))
      [FSNode.file "x.lang"] "sub" "EACCES" [] [["bad", "x.lang"]] rfl rfl,
   listing_failure_aborts_initialization.2 envD [⟨["ws1"]⟩] ⟨["bad"]⟩ [] "EACCES"
      (fun w' h => by
        rw [List.mem_singleton.1 h]
        exact ⟨[["ws1", "one.lang"]], rfl⟩)
      rfl⟩

theorem collectAll_map_ok {α β : Type} {g : α → Except String β} :
    ∀ {l : List α} {vs : List β},
      List.Forall₂ (fun a b => g a = Except.ok b) l vs →
      collectAll (l.map g) = Except.ok vs := by
  intro l vs h
  induction h with
  | nil => rfl
  | cons hab _ ih => simp [collectAll, hab, ih]

theorem filter_isBuilt_map_traversed (l : List (URI × List URI)) :
    (l.map (fun ru => Event.traversed ru.1 ru.2)).filter Event.isBuilt = [] := by
  induction l with
  | nil => rfl
  | cons ru l ih => simpa [List.filter_cons, Event.isBuilt] using ih

/-- C2: when every root folder's traversal succeeds, `initializeWorkspace`
produces the event trace in which each root's traversal completes (roots in
input order, each with its own traversal's URI list), then the
additional-documents hook runs, then — after the hook, as the final step — the
build is invoked with the flattened traversal documents in root order followed
by the hook-contributed documents.  The second conjunct states that this trace
contains exactly one build event, with exactly that merged document list. -/
theorem initializeWorkspace_single_build :
    ∀ (env : WorkspaceEnv) (folders : List WorkspaceFolder) (uriLists : List (List URI)),
      List.Forall₂ (fun w us => traverse (getRootFolder w)
          (some (workspaceFilter ((env.languages.map (fun l => l.fileExtensions)).flatten)))
          (env.fs (getRootFolder w)) = Except.ok us) folders uriLists →
      initializeWorkspace env folders =
        Except.ok (((folders.map getRootFolder).zip uriLists).map
            (fun ru => Event.traversed ru.1 ru.2)
          ++ [Event.hookRan env.additionalDocuments,
              Event.built (uriLists.flatten.map Document.ofUri ++ env.additionalDocuments)])
      ∧ ((((folders.map getRootFolder).zip uriLists).map
            (fun ru => Event.traversed ru.1 ru.2)
          ++ [Event.hookRan env.additionalDocuments,
              Event.built (uriLists.flatten.map Document.ofUri
                ++ env.additionalDocuments)]).filter Event.isBuilt)
        = [Event.built (uriLists.flatten.map Document.ofUri ++ env.additionalDocuments)] := by
  intro env folders uriLists h
  constructor
  · have h2 : List.Forall₂ (fun r us => traverse r
        (some (workspaceFilter ((env.languages.map (fun l => l.fileExtensions)).flatten)))
        (env.fs r) = Except.ok us) (folders.map getRootFolder) uriLists :=
      List.forall₂_map_left_iff.2 h
    have hc := collectAll_map_ok h2
    simp only [initializeWorkspace]
    rw [hc]
  · rw [List.filter_append, filter_isBuilt_map_traversed]
    rfl

theorem initializeWorkspace_single_build_witness :
    initializeWorkspace envB [⟨["ws1"]⟩, ⟨["ws2"]⟩] =
      Except.ok [Event.traversed ["ws1"] [["ws1", "one.lang"]],
        Event.traversed ["ws2"] [["ws2", "two.lang"]],
        Event.hookRan [Document.inMemory "builtin"],
        Event.built [Document.ofUri ["ws1", "one.lang"], Document.ofUri ["ws2", "two.lang"],
          Document.inMemory "builtin"]]
    ∧ ([Event.traversed ["ws1"] [["ws1", "one.lang"]],
        Event.traversed ["ws2"] [["ws2", "two.lang"]],
        Event.hookRan [Document.inMemory "builtin"],
        Event.built [Document.ofUri ["ws1", "one.lang"], Document.ofUri ["ws2", "two.lang"],
          Document.inMemory "builtin"]].filter Event.isBuilt)
      = [Event.built [Document.ofUri ["ws1", "one.lang"], Document.ofUri ["ws2", "two.lang"],
          Document.inMemory "builtin"]] :=
  initializeWorkspace_single_build envB [⟨["ws1"]⟩, ⟨["ws2"]⟩]
    [[["ws1", "one.lang"]], [["ws2", "two.lang"]]]
    (List.Forall₂.cons rfl (List.Forall₂.cons rfl List.Forall₂.nil))

theorem traverseEntries_pruned (nm : String) (f : FileSystemNode → Bool)
    (hf : ∀ e : FileSystemNode, e.isDirectory = true → e.name = nm → f e = false)
    (p : URI) (cs : List FSNode) :
    ∀ (us : List URI), traverseEntries p (some f) cs = Except.ok us →
      ∀ u ∈ us, ∃ s, u = p ++ s ∧ s ≠ []
        ∧ ∀ s1 s2, s = s1 ++ nm :: s2 → s2 = [] := by
  match cs with
  | [] =>
    intro us h u hu
    rw [traverseEntries_nil] at h
    cases h
    simp at hu
  | FSNode.file n :: rest =>
    intro us h u hu
    by_cases hp : passesFilter (some f) (mkFileSystemNode p (FSNode.file n)) = true
    · rw [traverseEntries_cons_file p _ n rest hp] at h
      obtain ⟨tail, htail, rfl⟩ := exceptMap_ok.1 h
      rcases List.mem_cons.1 hu with rfl | hu'
      · refine ⟨[n], rfl, by simp, ?_⟩
        intro s1 s2 hs
        have hlen := congrArg List.length hs
        simp [List.length_append] at hlen
        have h2 : s2.length = 0 := by omega
        exact List.length_eq_zero.1 h2
      · exact traverseEntries_pruned nm f hf p rest tail htail u hu'
    · rw [Bool.not_eq_true] at hp
      rw [traverseEntries_cons_skip p _ _ rest hp] at h
      exact traverseEntries_pruned nm f hf p rest us h u hu
  | FSNode.dir n cs2 :: rest =>
    intro us h u hu
    by_cases hp : passesFilter (some f) (mkFileSystemNode p (FSNode.dir n cs2)) = true
    · have hn : n ≠ nm := by
        intro heq
        have hfe := hf (mkFileSystemNode p (FSNode.dir n cs2)) rfl heq
        rw [show passesFilter (some f) (mkFileSystemNode p (FSNode.dir n cs2))
            = f (mkFileSystemNode p (FSNode.dir n cs2)) from rfl, hfe] at hp
        cases hp
      rw [traverseEntries_cons_dir p _ n cs2 rest hp] at h
      obtain ⟨here, hhere, h⟩ := exceptBind_ok.1 h
      obtain ⟨tail, htail, rfl⟩ := exceptMap_ok.1 h
      rcases List.mem_append.1 hu with hu' | hu'
      · obtain ⟨s, rfl, hne, hocc⟩ :=
          traverseEntries_pruned nm f hf (resolvePath p n) cs2 here hhere u hu'
        refine ⟨n :: s, by simp [resolvePath], by simp, ?_⟩
        intro s1 s2 hs
        cases s1 with
        | nil =>
          rw [List.nil_append] at hs
          exact absurd (List.head_eq_of_cons_eq hs) hn
        | cons a s1' =>
          rw [List.cons_append] at hs
          exact hocc s1' s2 (List.tail_eq_of_cons_eq hs)
      · exact traverseEntries_pruned nm f hf p rest tail htail u hu'
    · rw [Bool.not_eq_true] at hp
      rw [traverseEntries_cons_skip p _ _ rest hp] at h
      exact traverseEntries_pruned nm f hf p rest us h u hu
  | FSNode.baddir n e :: rest =>
    intro us h u hu
    by_cases hp : passesFilter (some f) (mkFileSystemNode p (FSNode.baddir n e)) = true
    · rw [traverseEntries_cons_baddir p _ n e rest hp] at h
      exact absurd h (by simp)
    · rw [Bool.not_eq_true] at hp
      rw [traverseEntries_cons_skip p _ _ rest hp] at h
      exact traverseEntries_pruned nm f hf p rest us h u hu
  | FSNode.other n :: rest =>
    intro us h u hu
    rw [traverseEntries_cons_other] at h
    exact traverseEntries_pruned nm f hf p rest us h u hu

/-- C4: if the filter returns false on every directory entry named `nm`, the
traversal never descends into such a directory, so no collected URI lies
anywhere beneath one: every collected URI is the root location extended by a
non-empty segment path in which the name `nm` can occur at most as the very
last segment (the collected file's own name), never as the name of a directory
on the path — the whole subtree is pruned, not just the directory node. -/
theorem rejected_directory_prunes_subtree :
    ∀ (nm : String) (f : FileSystemNode → Bool) (root : URI) (t : FSNode) (us : List URI),
      (∀ e : FileSystemNode, e.isDirectory = true → e.name = nm → f e = false) →
      traverse root (some f) t = Except.ok us →
      ∀ u ∈ us, ∃ s, u = root ++ s ∧ s ≠ []
        ∧ ∀ s1 s2, s = s1 ++ nm :: s2 → s2 = [] := by
  intro nm f root t us hf h u hu
  cases t with
  | dir n cs => exact traverseEntries_pruned nm f hf root cs us h u hu
  | file n =>
    change Except.error "ENOTDIR" = Except.ok us at h
    cases h
  | baddir n e =>
    change Except.error e = Except.ok us at h
    cases h
  | other n =>
    change Except.error "ENOTDIR" = Except.ok us at h
    cases h

theorem rejected_directory_prunes_subtree_witness :
    traverse ["ws"] (some (workspaceFilter [".lang"])) wsTree =
      Except.ok [["ws", "a.lang"], ["ws", "sub", "c.lang"]]
    ∧ ∃ s, ["ws", "sub", "c.lang"] = ["ws"] ++ s ∧ s ≠ []
        ∧ ∀ s1 s2, s = s1 ++ "node_modules" :: s2 → s2 = [] :=
  ⟨rfl,
   rejected_directory_prunes_subtree "node_modules" (workspaceFilter [".lang"]) ["ws"] wsTree
      [["ws", "a.lang"], ["ws", "sub", "c.lang"]]
      (fun e hd hn => by
        have hsw : startsWithDot "node_modules" = false := by decide
        simp only [workspaceFilter, includeNode, hn, hd, hsw, Bool.false_eq_true, if_false,
          if_true]
        decide)
      rfl ["ws", "sub", "c.lang"] (by decide)⟩

theorem ne_append_cons {α : Type} (q : List α) (a : α) (s : List α) : q ≠ q ++ a :: s := by
  intro h
  have hl := congrArg List.length h
  simp [List.length_append] at hl

theorem head_after_append {p s t : List String} {a b : String}
    (h : p ++ a :: s = p ++ b :: t) : a = b :=
  List.head_eq_of_cons_eq (List.append_cancel_left h)

theorem traverseEntries_trueFilter (p : URI) (cs : List FSNode) :
    noBadDirList cs = true →
    traverseEntries p (some (fun _ => true)) cs = Except.ok (reachableFilesList p cs) := by
  match cs with
  | [] => intro _; rfl
  | FSNode.file n :: rest =>
    intro h
    have hrest : noBadDirList rest = true := by simpa [noBadDirList, noBadDir] using h
    rw [traverseEntries_cons_file p (some (fun _ => true)) n rest rfl,
      traverseEntries_trueFilter p rest hrest]
    simp [reachableFilesList, reachableFilesFrom, Except.map, resolvePath]
  | FSNode.dir n cs2 :: rest =>
    intro h
    have h2 : noBadDirList cs2 = true ∧ noBadDirList rest = true := by
      simpa [noBadDirList, noBadDir, Bool.and_eq_true] using h
    rw [traverseEntries_cons_dir p (some (fun _ => true)) n cs2 rest rfl,
      traverseEntries_trueFilter (resolvePath p n) cs2 h2.1,
      traverseEntries_trueFilter p rest h2.2]
    simp [reachableFilesList, reachableFilesFrom, Except.bind, Except.map]
  | FSNode.baddir n e :: rest =>
    intro h
    simp [noBadDirList, noBadDir] at h
  | FSNode.other n :: rest =>
    intro h
    have hrest : noBadDirList rest = true := by simpa [noBadDirList, noBadDir] using h
    rw [traverseEntries_cons_other, traverseEntries_trueFilter p rest hrest]
    simp [reachableFilesList, reachableFilesFrom]

theorem reachableFilesList_shape (p : URI) (cs : List FSNode) :
    ∀ u ∈ reachableFilesList p cs, ∃ c, c ∈ cs ∧ ∃ s : List String, u = p ++ c.name :: s := by
  match cs with
  | [] => intro u hu; simp [reachableFilesList] at hu
  | c :: rest =>
    intro u hu
    rw [show reachableFilesList p (c :: rest)
        = reachableFilesFrom p c ++ reachableFilesList p rest from rfl] at hu
    rcases List.mem_append.1 hu with hu' | hu'
    · cases c with
      | file n =>
        simp only [reachableFilesFrom, List.mem_singleton] at hu'
        exact ⟨FSNode.file n, List.mem_cons_self _ _, [], hu'⟩
      | dir n cs2 =>
        simp only [reachableFilesFrom] at hu'
        obtain ⟨c', _, s', hs'⟩ := reachableFilesList_shape (resolvePath p n) cs2 u hu'
        refine ⟨FSNode.dir n cs2, List.mem_cons_self _ _, FSNode.name c' :: s', ?_⟩
        rw [hs']
        simp [resolvePath, FSNode.name]
      | baddir n e => simp [reachableFilesFrom] at hu'
      | other n => simp [reachableFilesFrom] at hu'
    · obtain ⟨c', hc', s, hs⟩ := reachableFilesList_shape p rest u hu'
      exact ⟨c', List.mem_cons_of_mem _ hc', s, hs⟩

theorem reachableFilesFrom_shape (p : URI) (c : FSNode) :
    ∀ u ∈ reachableFilesFrom p c, ∃ s : List String, u = p ++ FSNode.name c :: s := by
  intro u hu
  cases c with
  | file n =>
    simp only [reachableFilesFrom, List.mem_singleton] at hu
    exact ⟨[], hu⟩
  | dir n cs2 =>
    simp only [reachableFilesFrom] at hu
    obtain ⟨c', _, s', hs'⟩ := reachableFilesList_shape (resolvePath p n) cs2 u hu
    refine ⟨FSNode.name c' :: s', ?_⟩
    rw [hs']
    simp [resolvePath, FSNode.name]
  | baddir n e => simp [reachableFilesFrom] at hu
  | other n => simp [reachableFilesFrom] at hu

theorem reachableDirsList_shape (p : URI) (cs : List FSNode) :
    ∀ d ∈ reachableDirsList p cs, ∃ c, c ∈ cs ∧ ∃ s : List String, d = p ++ FSNode.name c :: s := by
  match cs with
  | [] => intro d hd; simp [reachableDirsList] at hd
  | c :: rest =>
    intro d hd
    rw [show reachableDirsList p (c :: rest)
        = reachableDirsFrom p c ++ reachableDirsList p rest from rfl] at hd
    rcases List.mem_append.1 hd with hd' | hd'
    · cases c with
      | file n => simp [reachableDirsFrom] at hd'
      | dir n cs2 =>
        simp only [reachableDirsFrom, List.mem_cons] at hd'
        rcases hd' with rfl | hd2
        · exact ⟨FSNode.dir n cs2, List.mem_cons_self _ _, [], rfl⟩
        · obtain ⟨c', _, s', hs'⟩ := reachableDirsList_shape (resolvePath p n) cs2 d hd2
          refine ⟨FSNode.dir n cs2, List.mem_cons_self _ _, FSNode.name c' :: s', ?_⟩
          rw [hs']
          simp [resolvePath, FSNode.name]
      | baddir n e =>
        simp only [reachableDirsFrom, List.mem_singleton] at hd'
        exact ⟨FSNode.baddir n e, List.mem_cons_self _ _, [], hd'⟩
      | other n => simp [reachableDirsFrom] at hd'
    · obtain ⟨c', hc', s, hs⟩ := reachableDirsList_shape p rest d hd'
      exact ⟨c', List.mem_cons_of_mem _ hc', s, hs⟩

theorem reachableDirsFrom_shape (p : URI) (c : FSNode) :
    ∀ d ∈ reachableDirsFrom p c, ∃ s : List String, d = p ++ FSNode.name c :: s := by
  intro d hd
  cases c with
  | file n => simp [reachableDirsFrom] at hd
  | dir n cs2 =>
    simp only [reachableDirsFrom, List.mem_cons] at hd
    rcases hd with rfl | hd2
    · exact ⟨[], rfl⟩
    · obtain ⟨c', _, s', hs'⟩ := reachableDirsList_shape (resolvePath p n) cs2 d hd2
      refine ⟨FSNode.name c' :: s', ?_⟩
      rw [hs']
      simp [resolvePath, FSNode.name]
  | baddir n e =>
    simp only [reachableDirsFrom, List.mem_singleton] at hd
    exact ⟨[], hd⟩
  | other n => simp [reachableDirsFrom] at hd

theorem reachableFilesList_nodup (p : URI) (cs : List FSNode) :
    (cs.map FSNode.name).Nodup → wellFormedList cs = true →
    (reachableFilesList p cs).Nodup := by
  match cs with
  | [] => intro _ _; simp [reachableFilesList]
  | c :: rest =>
    intro hnames hwf
    rw [List.map_cons] at hnames
    obtain ⟨hnotin, hnames'⟩ := List.nodup_cons.1 hnames
    have hc : wellFormed c = true ∧ wellFormedList rest = true := by
      simpa [wellFormedList, Bool.and_eq_true] using hwf
    rw [show reachableFilesList p (c :: rest)
        = reachableFilesFrom p c ++ reachableFilesList p rest from rfl]
    apply List.Nodup.append
    · cases c with
      | file n => simp [reachableFilesFrom]
      | dir n cs2 =>
        have hsub : (cs2.map FSNode.name).Nodup ∧ wellFormedList cs2 = true := by
          simpa [wellFormed, Bool.and_eq_true, decide_eq_true_eq] using hc.1
        exact reachableFilesList_nodup (resolvePath p n) cs2 hsub.1 hsub.2
      | baddir n e => simp [reachableFilesFrom]
      | other n => simp [reachableFilesFrom]
    · exact reachableFilesList_nodup p rest hnames' hc.2
    · intro u hu hurest
      obtain ⟨s, rfl⟩ := reachableFilesFrom_shape p c u hu
      obtain ⟨c', hc', s', hs'⟩ := reachableFilesList_shape p rest _ hurest
      exact hnotin ((head_after_append hs') ▸ List.mem_map_of_mem FSNode.name hc')

theorem reachableDirsList_disjoint_files (p : URI) (cs : List FSNode) :
    (cs.map FSNode.name).Nodup → wellFormedList cs = true →
    ∀ d ∈ reachableDirsList p cs, d ∉ reachableFilesList p cs := by
  match cs with
  | [] => intro _ _ d hd; simp [reachableDirsList] at hd
  | c :: rest =>
    intro hnames hwf d hd hdf
    rw [List.map_cons] at hnames
    obtain ⟨hnotin, hnames'⟩ := List.nodup_cons.1 hnames
    have hc : wellFormed c = true ∧ wellFormedList rest = true := by
      simpa [wellFormedList, Bool.and_eq_true] using hwf
    rw [show reachableDirsList p (c :: rest)
        = reachableDirsFrom p c ++ reachableDirsList p rest from rfl] at hd
    rw [show reachableFilesList p (c :: rest)
        = reachableFilesFrom p c ++ reachableFilesList p rest from rfl] at hdf
    rcases List.mem_append.1 hd with hd' | hd' <;> rcases List.mem_append.1 hdf with hf' | hf'
    · cases c with
      | file n => simp [reachableDirsFrom] at hd'
      | baddir n e => simp [reachableFilesFrom] at hf'
      | other n => simp [reachableDirsFrom] at hd'
      | dir n cs2 =>
        have hsub : (cs2.map FSNode.name).Nodup ∧ wellFormedList cs2 = true := by
          simpa [wellFormed, Bool.and_eq_true, decide_eq_true_eq] using hc.1
        simp only [reachableDirsFrom, List.mem_cons] at hd'
        simp only [reachableFilesFrom] at hf'
        rcases hd' with rfl | hd2
        · obtain ⟨c', _, s', hs'⟩ := reachableFilesList_shape (resolvePath p n) cs2 _ hf'
          exact ne_append_cons (resolvePath p n) (FSNode.name c') s' hs'
        · exact reachableDirsList_disjoint_files (resolvePath p n) cs2 hsub.1 hsub.2 d hd2 hf'
    · obtain ⟨s, rfl⟩ := reachableDirsFrom_shape p c d hd'
      obtain ⟨c', hcr, s', hs'⟩ := reachableFilesList_shape p rest _ hf'
      exact hnotin ((head_after_append hs') ▸ List.mem_map_of_mem FSNode.name hcr)
    · obtain ⟨s, hsf⟩ := reachableFilesFrom_shape p c d hf'
      obtain ⟨c', hcr, s', hs'⟩ := reachableDirsList_shape p rest d hd'
      have heq : FSNode.name c = FSNode.name c' := head_after_append (hsf.symm.trans hs')
      exact hnotin (heq ▸ List.mem_map_of_mem FSNode.name hcr)
    · exact reachableDirsList_disjoint_files p rest hnames' hc.2 d hd' hf'

/-- C1: on any well-formed directory tree (distinct sibling names, as in a real
file system) whose listings all succeed, `traverse` with an always-true filter
returns exactly the list of file locations reachable from the root; that list
contains each reachable file location exactly once (no duplicates) and contains
no reachable directory location (neither the root nor any subdirectory). -/
theorem traverse_trueFilter_exact :
    ∀ (root : URI) (nm : String) (children : List FSNode),
      wellFormed (FSNode.dir nm children) = true →
      noBadDir (FSNode.dir nm children) = true →
      traverse root (some (fun _ => true)) (FSNode.dir nm children) =
          Except.ok (reachableFiles root (FSNode.dir nm children))
        ∧ (reachableFiles root (FSNode.dir nm children)).Nodup
        ∧ ∀ d ∈ reachableDirs root (FSNode.dir nm children),
            d ∉ reachableFiles root (FSNode.dir nm children) := by
  intro root nm children hwf hnb
  have hw : (children.map FSNode.name).Nodup ∧ wellFormedList children = true := by
    simpa [wellFormed, Bool.and_eq_true, decide_eq_true_eq] using hwf
  have hnbl : noBadDirList children = true := by simpa [noBadDir] using hnb
  refine ⟨?_, ?_, ?_⟩
  · show traverseEntries root (some (fun _ => true)) children
      = Except.ok (reachableFilesList root children)
    exact traverseEntries_trueFilter root children hnbl
  · exact reachableFilesList_nodup root children hw.1 hw.2
  · intro d hd
    rw [show reachableDirs root (FSNode.dir nm children)
        = root :: reachableDirsList root children from rfl] at hd
    rcases List.mem_cons.1 hd with rfl | hd'
    · intro hdf
      obtain ⟨c', _, s', hs'⟩ := reachableFilesList_shape d children _ hdf
      exact ne_append_cons d (FSNode.name c') s' hs'
    · exact reachableDirsList_disjoint_files root children hw.1 hw.2 d hd'

theorem traverse_trueFilter_exact_witness :
    traverse ["ws"] (some (fun _ => true)) wsTree = Except.ok (reachableFiles ["ws"] wsTree)
    ∧ (reachableFiles ["ws"] wsTree).Nodup
    ∧ ["ws", "sub"] ∉ reachableFiles ["ws"] wsTree := by
  have h := traverse_trueFilter_exact ["ws"] "ws"
    [FSNode.file "a.lang", FSNode.file "b.txt", FSNode.dir "sub" [FSNode.file "c.lang"],
     FSNode.dir "node_modules" [FSNode.file "d.lang"]] (by decide) (by decide)
  exact ⟨h.1, h.2.1, h.2.2 ["ws", "sub"] (by decide)⟩
